import Mathlib

/-!
Verification of the fabric CRUD-generation library, shallowly embedded from
the Python source: fabric/common/crud.py, fabric/common/sqlalchemy_to_pydantic.py,
fabric/schemas/generate.py, fabric/schemas/defaults.py, fabric/routes/defaults.py
and fabric/reference_routes/router_fabric.py.

Python dictionaries and ORM model instances are embedded as association
lists.  A stored Python value is `Option β` (`none` being Python `None`), so
a dictionary is a list of pairs `Col × Option β`; `dict.get(k)` returns the
stored value when the key is present and `None` otherwise, which is
`Option.join` of the association-list lookup.  Python dicts preserve the
first-insertion position of a key and overwrite its value in place, which is
what `aset` does.
-/

namespace Fabric

/-- Column (attribute) names of a mapped model. -/
abbrev Col := String

/-- A Python dict or ORM model instance: ordered key-value pairs whose values
may be Python None (`none`). -/
abbrev Dict (β : Type) := List (Col × Option β)

/-- First-match association-list lookup, i.e. Python dict indexing as an
`Option`. -/
def alookup {κ α : Type} [DecidableEq κ] : List (κ × α) → κ → Option α
  | [], _ => none
  | p :: rest, k => if p.1 = k then some p.2 else alookup rest k

/-- Keys of an association list, in order. -/
def akeys {κ α : Type} (m : List (κ × α)) : List κ :=
  m.map Prod.fst

/-- Python dict assignment `m[k] = v`: overwrite in place when the key is
present, append otherwise. -/
def aset {κ α : Type} [DecidableEq κ] (m : List (κ × α)) (k : κ) (v : α) :
    List (κ × α) :=
  if k ∈ akeys m then m.map (fun p => if p.1 = k then (k, v) else p)
  else m ++ [(k, v)]

/-- Python `dict.pop(k)` returning the value and the remaining dict, `none`
when the key is missing (KeyError). -/
def apop {κ α : Type} [DecidableEq κ] : List (κ × α) → κ → Option (α × List (κ × α))
  | [], _ => none
  | p :: rest, k =>
    if p.1 = k then some (p.2, rest)
    else (apop rest k).map (fun q => (q.1, p :: q.2))

/-- Python `d.get(c)`: the stored value (possibly None) when present, None
when absent. -/
def pyGet {β : Type} (d : Dict β) (c : Col) : Option β :=
  (alookup d c).join

/-- Tuple of unique-constraint column values of a row,
`tuple(dict_.get(f) for f in unique_constr_names)` (crud.py line 148), also
`tuple(getattr(model, v) for v in unique_constr_names)` (line 167). -/
def keyOf {β : Type} (keys : List Col) (d : Dict β) : List (Option β) :=
  keys.map (pyGet d)

/-- Embeds crud.py lines 147-150: the dict comprehension
`{tuple(dict_.get(f) for f in unique_constr_names): dict_ for dict_ in final_in_data}`.
A later row with an already-seen key tuple overwrites the earlier one in
place. -/
def buildDict {β : Type} [DecidableEq β] (keys : List Col) (rows : List (Dict β)) :
    List (List (Option β) × Dict β) :=
  rows.foldl (fun acc r => aset acc (keyOf keys r) r) []

/-- First of two options, used to specify first-match searches. -/
def ofirst {α : Type} : Option α → Option α → Option α
  | some a, _ => some a
  | none, b => b

theorem ofirst_none_left {α : Type} (b : Option α) : ofirst none b = b := rfl

theorem ofirst_assoc {α : Type} (a b c : Option α) :
    ofirst (ofirst a b) c = ofirst a (ofirst b c) := by
  cases a <;> cases b <;> rfl

theorem find?_append {α : Type} (l₁ l₂ : List α) (p : α → Bool) :
    (l₁ ++ l₂).find? p = ofirst (l₁.find? p) (l₂.find? p) := by
  induction l₁ with
  | nil => rfl
  | cons a l ih =>
    by_cases h : p a
    · simp [List.find?, h, ofirst]
    · simp only [List.cons_append, List.find?, Bool.of_not_eq_true h]
      exact ih

theorem alookup_eq_none {κ α : Type} [DecidableEq κ] (m : List (κ × α)) (k : κ) :
    alookup m k = none ↔ k ∉ akeys m := by
  induction m with
  | nil => simp [alookup, akeys]
  | cons p rest ih =>
    by_cases h : p.1 = k
    · simp [alookup, akeys, h]
    · simp [alookup, akeys, h, ih, Ne.symm h]

theorem alookup_map_overwrite_of_ne {κ α : Type} [DecidableEq κ]
    (m : List (κ × α)) (k : κ) (v : α) (k' : κ) (h : k' ≠ k) :
    alookup (m.map (fun p => if p.1 = k then (k, v) else p)) k' = alookup m k' := by
  induction m with
  | nil => rfl
  | cons p rest ih =>
    by_cases hp : p.1 = k
    · have : k ≠ k' := fun hc => h hc.symm
      simp [alookup, hp, this, ih]
    · simp [alookup, hp, ih]

theorem alookup_map_overwrite_of_mem {κ α : Type} [DecidableEq κ]
    (m : List (κ × α)) (k : κ) (v : α) (h : k ∈ akeys m) :
    alookup (m.map (fun p => if p.1 = k then (k, v) else p)) k = some v := by
  induction m with
  | nil => simp [akeys] at h
  | cons p rest ih =>
    by_cases hp : p.1 = k
    · simp [alookup, hp]
    · have hr : k ∈ akeys rest := by
        simp [akeys] at h ⊢
        rcases h with h | h
        · exact absurd h.symm hp
        · exact h
      simp [alookup, hp, ih hr]

theorem alookup_append_single {κ α : Type} [DecidableEq κ]
    (m : List (κ × α)) (k : κ) (v : α) (k' : κ) :
    alookup (m ++ [(k, v)]) k' =
      ofirst (alookup m k') (if k = k' then some v else none) := by
  induction m with
  | nil => simp [alookup, ofirst]
  | cons p rest ih =>
    by_cases hp : p.1 = k'
    · simp [alookup, hp, ofirst]
    · simp [alookup, hp, ih]

theorem alookup_aset {κ α : Type} [DecidableEq κ]
    (m : List (κ × α)) (k : κ) (v : α) (k' : κ) :
    alookup (aset m k v) k' = if k' = k then some v else alookup m k' := by
  unfold aset
  by_cases hmem : k ∈ akeys m
  · simp only [hmem, if_true]
    by_cases h : k' = k
    · subst h
      simp [alookup_map_overwrite_of_mem m k' v hmem]
    · simp [h, alookup_map_overwrite_of_ne m k v k' h]
  · simp only [hmem, if_false]
    rw [alookup_append_single]
    by_cases h : k' = k
    · subst h
      have : alookup m k' = none := (alookup_eq_none m k').mpr hmem
      simp [this, ofirst]
    · have hkk : k ≠ k' := fun hc => h hc.symm
      rw [if_neg hkk, if_neg h]
      cases alookup m k' <;> rfl

theorem akeys_aset {κ α : Type} [DecidableEq κ] (m : List (κ × α)) (k : κ) (v : α) :
    akeys (aset m k v) = if k ∈ akeys m then akeys m else akeys m ++ [k] := by
  unfold aset
  by_cases hmem : k ∈ akeys m
  · simp only [hmem, if_true]
    unfold akeys
    rw [List.map_map]
    apply List.map_congr_left
    intro p _
    by_cases hp : p.1 = k
    · simp [Function.comp, hp]
    · simp [Function.comp, hp]
  · rw [if_neg hmem, if_neg hmem]
    simp [akeys]

theorem akeys_aset_nodup {κ α : Type} [DecidableEq κ]
    (m : List (κ × α)) (k : κ) (v : α) (h : (akeys m).Nodup) :
    (akeys (aset m k v)).Nodup := by
  rw [akeys_aset]
  by_cases hmem : k ∈ akeys m
  · simpa [hmem]
  · simp only [hmem, if_false]
    rw [List.nodup_append]
    refine ⟨h, List.nodup_singleton k, ?_⟩
    intro a ha hb
    rw [List.mem_singleton] at hb
    subst hb
    exact hmem ha

theorem buildDict_keys_nodup {β : Type} [DecidableEq β]
    (keys : List Col) (rows : List (Dict β)) :
    (akeys (buildDict keys rows)).Nodup := by
  suffices h : ∀ (acc : List (List (Option β) × Dict β)), (akeys acc).Nodup →
      (akeys (rows.foldl (fun acc r => aset acc (keyOf keys r) r) acc)).Nodup by
    exact h [] (by simp [akeys])
  induction rows with
  | nil => intro acc hacc; exact hacc
  | cons r rest ih =>
    intro acc hacc
    exact ih _ (akeys_aset_nodup _ _ _ hacc)

theorem filter_key_eq_nil {κ α : Type} [DecidableEq κ]
    (m : List (κ × α)) (k : κ) (h : k ∉ akeys m) :
    m.filter (fun p => p.1 = k) = [] := by
  induction m with
  | nil => rfl
  | cons p rest ih =>
    have hp : p.1 ≠ k := by
      intro hc
      exact h (by simp [akeys, hc])
    have hr : k ∉ akeys rest := fun hc => h (by simp [akeys] at hc ⊢; exact Or.inr hc)
    simp [List.filter, hp, ih hr]

theorem filter_key_of_lookup {κ α : Type} [DecidableEq κ]
    (m : List (κ × α)) (k : κ) (v : α)
    (hnd : (akeys m).Nodup) (h : alookup m k = some v) :
    m.filter (fun p => p.1 = k) = [(k, v)] := by
  induction m with
  | nil => simp [alookup] at h
  | cons p rest ih =>
    by_cases hp : p.1 = k
    · have hv : p.2 = v := by
        simp [alookup, hp] at h
        exact h
      have hk : k ∉ akeys rest := by
        rw [← hp]
        have hcons : akeys (p :: rest) = p.1 :: akeys rest := rfl
        rw [hcons] at hnd
        exact (List.nodup_cons.mp hnd).1
      have hpair : p = (k, v) := by
        cases p
        simp_all
      simp [List.filter, hp, hpair, filter_key_eq_nil rest k hk]
    · have hrest : alookup rest k = some v := by
        simpa [alookup, hp] using h
      have hnd' : (akeys rest).Nodup := by
        have hcons : akeys (p :: rest) = p.1 :: akeys rest := rfl
        rw [hcons] at hnd
        exact (List.nodup_cons.mp hnd).2
      simp [List.filter, hp, ih hnd' hrest]

theorem alookup_buildDict_aux {β : Type} [DecidableEq β]
    (keys : List Col) (rows : List (Dict β)) (k : List (Option β)) :
    ∀ acc, alookup (rows.foldl (fun acc r => aset acc (keyOf keys r) r) acc) k =
      ofirst (rows.reverse.find? (fun r => keyOf keys r = k)) (alookup acc k) := by
  induction rows with
  | nil => intro acc; rfl
  | cons r rest ih =>
    intro acc
    rw [List.foldl_cons, ih, List.reverse_cons, find?_append, ofirst_assoc]
    congr 1
    rw [alookup_aset]
    by_cases h : keyOf keys r = k
    · simp [List.find?, h, ofirst]
    · have h' : k ≠ keyOf keys r := fun hc => h hc.symm
      simp [List.find?, h, h', ofirst]

theorem alookup_buildDict {β : Type} [DecidableEq β]
    (keys : List Col) (rows : List (Dict β)) (k : List (Option β)) :
    alookup (buildDict keys rows) k =
      rows.reverse.find? (fun r => keyOf keys r = k) := by
  rw [buildDict, alookup_buildDict_aux]
  cases rows.reverse.find? (fun r => keyOf keys r = k) <;> rfl

/-- C1: for a composite (multi-column) unique key, when at least two rows of
the input batch share the same key tuple, the deduplication dict built by
`bulk_merge_create` (crud.py lines 147-150) keeps exactly one entry for that
tuple, and its value is the row appearing last in the input sequence. -/
theorem bulk_merge_dedup_last_wins {β : Type} [DecidableEq β]
    (keys : List Col) (rows : List (Dict β)) (k : List (Option β))
    (_hcomposite : 2 ≤ keys.length)
    (hdup : 2 ≤ (rows.filter (fun r => keyOf keys r = k)).length) :
    ∃ r, (buildDict keys rows).filter (fun p => p.1 = k) = [(k, r)] ∧
      rows.reverse.find? (fun r' => keyOf keys r' = k) = some r := by
  have hne : rows.filter (fun r => keyOf keys r = k) ≠ [] := by
    intro hc
    rw [hc] at hdup
    simp at hdup
  have hex : ∃ r ∈ rows, (fun r => decide (keyOf keys r = k)) r = true := by
    rcases List.exists_mem_of_ne_nil _ hne with ⟨r, hr⟩
    exact ⟨r, (List.mem_filter.mp hr).1, (List.mem_filter.mp hr).2⟩
  have hfind : rows.reverse.find? (fun r' => keyOf keys r' = k) ≠ none := by
    intro hc
    rw [List.find?_eq_none] at hc
    rcases hex with ⟨r, hr, hp⟩
    exact hc r (List.mem_reverse.mpr hr) hp
  rcases Option.ne_none_iff_exists'.mp hfind with ⟨r, hr⟩
  refine ⟨r, ?_, hr⟩
  have hl : alookup (buildDict keys rows) k = some r := by
    rw [alookup_buildDict]; exact hr
  exact filter_key_of_lookup _ _ _ (buildDict_keys_nodup keys rows) hl

/-- Batch used to witness C1: the first and third rows share the composite
key (1, 2); the third appears last. -/
def rowsC1 : List (Dict Int) :=
  [[("a", some 1), ("b", some 2), ("x", some 5)],
   [("a", some 3), ("b", some 4), ("x", some 6)],
   [("a", some 1), ("b", some 2), ("x", some 7)]]

/-- Witness for C1 at a concrete three-row batch with a duplicated composite
key. -/
theorem bulk_merge_dedup_last_wins_witness :
    ∃ r, (buildDict ["a", "b"] rowsC1).filter
        (fun p => p.1 = [some (1 : Int), some 2]) = [([some (1 : Int), some 2], r)] ∧
      rowsC1.reverse.find?
        (fun r' => keyOf ["a", "b"] r' = [some (1 : Int), some 2]) = some r :=
  bulk_merge_dedup_last_wins ["a", "b"] rowsC1 [some 1, some 2] (by decide) (by decide)

/-- Table metadata consumed by CRUDBase.bulk_merge_create: the model's column
names and the flattened unique-constraint column names (crud.py lines
112-117). -/
structure TableMeta where
  columns : List Col
  uniqueCols : List Col
deriving DecidableEq

/-- Embeds crud.py lines 126-130:
`column_to_update = {c.name for c in columns} - set(unique_constr_names) - {"id"}`. -/
def columnToUpdate (t : TableMeta) : List Col :=
  t.columns.filter (fun c => c ∉ t.uniqueCols ∧ c ≠ "id")

/-- Which database path CRUDBase.bulk_merge_create ends up executing. -/
inductive BulkPlan where
  | plainInsert
  | singleUpsert (indexCol : Col) (updateCols : List Col)
  | compositeMerge (uniqueCols : List Col)
deriving DecidableEq

/-- Embeds the control flow of CRUDBase.bulk_merge_create (crud.py lines
96-178): plain insert when a simple insert is requested or there are no
unique-constraint columns; with exactly one unique column, plain insert when
nothing is left to update, a native upsert otherwise; with several unique
columns, the composite merge path. -/
def bulkMergePlan (t : TableMeta) (isSimpleInsert : Bool) : BulkPlan :=
  if isSimpleInsert then .plainInsert
  else match t.uniqueCols with
    | [] => .plainInsert
    | [c] =>
      if columnToUpdate t = [] then .plainInsert
      else .singleUpsert c (columnToUpdate t)
    | cs => .compositeMerge cs

/-- Model whose composite unique constraint (a, b) exhausts all non-id
columns. -/
def tableC2 : TableMeta := ⟨["id", "a", "b"], ["a", "b"]⟩

/-- Counterexample to C2 as stated: for a model whose composite unique
constraint exhausts all non-identifier columns, bulk_merge_create does not
perform a plain bulk insert — the `column_to_update` emptiness check of
crud.py lines 126-135 lives only in the single-column branch, so the
composite merge path runs instead. -/
theorem bulk_merge_exhausted_composite_not_plain :
    columnToUpdate tableC2 = [] ∧
      bulkMergePlan tableC2 false ≠ BulkPlan.plainInsert := by
  decide

/-- C2 (amended): bulk_merge_create performs a plain bulk insert of all rows,
with no conflict-update logic, exactly when a simple insert is requested, or
the model has no unique-constraint columns, or the uniqueness constraint
spans exactly one column and its columns exhaust all non-identifier columns;
with a multi-column constraint the merge path runs even when nothing is left
to update. -/
theorem bulk_merge_plain_insert_iff (t : TableMeta) (b : Bool) :
    bulkMergePlan t b = BulkPlan.plainInsert ↔
      (b = true ∨ t.uniqueCols = [] ∨
        (t.uniqueCols.length = 1 ∧ columnToUpdate t = [])) := by
  unfold bulkMergePlan
  cases b with
  | true => simp
  | false =>
    simp only [Bool.false_eq_true, false_or, if_false]
    rcases hu : t.uniqueCols with _ | ⟨c, _ | ⟨c2, cs⟩⟩
    · simp
    · by_cases hc : columnToUpdate t = []
      · simp [hc]
      · simp [hc]
    · simp

/-- Witness for C2 at a model with no uniqueness constraint. -/
theorem bulk_merge_plain_insert_iff_witness :
    bulkMergePlan ⟨["id", "a"], []⟩ false = BulkPlan.plainInsert :=
  (bulk_merge_plain_insert_iff ⟨["id", "a"], []⟩ false).mpr (Or.inr (Or.inl rfl))

/-- Mapped-model column metadata consumed by the schema generators.
`hasDefault` is "column.default is not None". -/
structure ColumnInfo where
  name : Col
  primaryKey : Bool
  uniqueFlag : Bool
  nullable : Bool
  hasDefault : Bool
deriving DecidableEq

/-- A generated pydantic field: its name, whether its type is wrapped in
Optional, and whether it is required (pydantic default `...`). -/
structure SchemaField where
  name : Col
  optionalType : Bool
  required : Bool
deriving DecidableEq

/-- Python truthiness of an optional list argument (None and the empty list
are falsy). -/
def pyTruthyList : Option (List Col) → Bool
  | none => false
  | some l => !l.isEmpty

/-- Embeds generate_pydantic_schema_from_model (schemas/generate.py lines
9-67), recording for each kept column the generated field.  Underlying
python_type inference is assumed to succeed and is not modelled. -/
def generateSchemaFields (cols : List ColumnInfo) (inc exc : Option (List Col))
    (onlyPrimaryKeys onlyUnique makeAllOptional : Bool) : List SchemaField :=
  cols.filterMap (fun c =>
    if pyTruthyList inc ∧ c.name ∉ inc.getD [] then none
    else if pyTruthyList exc ∧ c.name ∈ exc.getD [] then none
    else if onlyPrimaryKeys ∧ ¬c.primaryKey then none
    else if onlyUnique ∧ ¬c.uniqueFlag then none
    else some ⟨c.name, c.nullable || makeAllOptional,
               !c.hasDefault && !c.nullable && !makeAllOptional⟩)

/-- Embeds IdentitySchema (schemas/defaults.py lines 19-24):
generate_pydantic_schema_from_model with only_primary_keys=True and all other
options at their defaults. -/
def identitySchemaFields (cols : List ColumnInfo) : List SchemaField :=
  generateSchemaFields cols none none true false false

/-- Embeds get_model_identity_schema (common/sqlalchemy_to_pydantic.py lines
11-47).  The skip condition is the literal
`not column.primary_key and (include_unique and not column.unique)` of lines
28-31; a kept non-primary-key column gets an Optional type with default
None. -/
def identityFieldsSqla (cols : List ColumnInfo) (includeUnique : Bool) :
    List SchemaField :=
  cols.filterMap (fun c =>
    if !c.primaryKey && (includeUnique && !c.uniqueFlag) then none
    else some ⟨c.name, !c.primaryKey,
               (!c.hasDefault && !c.nullable) && c.primaryKey⟩)

/-- Primary-key column used in schema examples. -/
def idCol : ColumnInfo := ⟨"id", true, false, false, false⟩

/-- Column that is neither a primary key nor unique. -/
def plainCol : ColumnInfo := ⟨"name", false, false, true, false⟩

/-- C5: get_model_identity_schema with include_unique=False includes the
column "name" although it is neither a primary key nor unique, because the
skip condition of sqlalchemy_to_pydantic.py lines 28-31 never holds when
include_unique is False; the parallel generator used by IdentitySchema
(schemas/generate.py with only_primary_keys=True) keeps only "id" as the
claim states. -/
theorem identity_schema_includes_non_pk_column :
    plainCol.primaryKey = false ∧ plainCol.uniqueFlag = false ∧
      (identityFieldsSqla [idCol, plainCol] false).map SchemaField.name
        = ["id", "name"] ∧
      (identitySchemaFields [idCol, plainCol]).map SchemaField.name = ["id"] := by
  decide

/-- Pydantic validation of a mapping against generated fields, restricted to
field presence: validation succeeds iff every required field is among the
present keys (absent optional fields default to None; per-field type checks
are not modelled). -/
def validatePresence (fields : List SchemaField) (present : List Col) : Bool :=
  fields.all (fun f => !f.required || decide (f.name ∈ present))

/-- First component of a composite primary key. -/
def pkACol : ColumnInfo := ⟨"a", true, false, false, false⟩

/-- Second component of a composite primary key. -/
def pkBCol : ColumnInfo := ⟨"b", true, false, false, false⟩

/-- Counterexample to C4 as stated: for the identity schema of a model with
composite primary key (a, b), the mapping presenting only "a" has at least
one present field yet fails validation, because "b" is also required; no "at
least one field required" rule exists in either schema generator. -/
theorem identity_validate_one_field_fails :
    validatePresence (identitySchemaFields [pkACol, pkBCol]) ["a"] = false := by
  decide

theorem validate_identitySchemaFields_iff (cols : List ColumnInfo) (present : List Col) :
    validatePresence (identitySchemaFields cols) present = true ↔
      ∀ c ∈ cols, c.primaryKey = true → c.hasDefault = false →
        c.nullable = false → c.name ∈ present := by
  induction cols with
  | nil => simp [identitySchemaFields, generateSchemaFields, validatePresence]
  | cons c rest ih =>
    by_cases hpk : c.primaryKey <;>
      by_cases hd : c.hasDefault <;>
        by_cases hn : c.nullable <;>
          by_cases hm : c.name ∈ present <;>
            simp [identitySchemaFields, generateSchemaFields, validatePresence,
              pyTruthyList, hpk, hd, hn, hm] at ih ⊢ <;>
              simp [ih]

theorem validate_identityFieldsSqla_iff (cols : List ColumnInfo) (present : List Col)
    (iu : Bool) :
    validatePresence (identityFieldsSqla cols iu) present = true ↔
      ∀ c ∈ cols, c.primaryKey = true → c.hasDefault = false →
        c.nullable = false → c.name ∈ present := by
  induction cols with
  | nil => simp [identityFieldsSqla, validatePresence]
  | cons c rest ih =>
    by_cases hpk : c.primaryKey <;>
      by_cases hu : c.uniqueFlag <;>
        by_cases hd : c.hasDefault <;>
          by_cases hn : c.nullable <;>
            by_cases hm : c.name ∈ present <;>
              cases iu <;>
                simp [identityFieldsSqla, validatePresence,
                  hpk, hu, hd, hn, hm] at ih ⊢ <;>
                  simp [ih]

/-- C4 (amended): validating a mapping against a derived identity/filter
schema succeeds iff every primary-key column that is non-nullable and without
default is present in the mapping.  In particular the all-absent mapping
fails exactly when such a column exists (reported as per-field
required-field errors; no dedicated "at least one field required" error
exists), and a mapping with one present field can still fail when another
required key column is absent.  This holds for both generators
(IdentitySchema via schemas/generate.py and get_model_identity_schema). -/
theorem identity_validate_iff (cols : List ColumnInfo) (present : List Col) (iu : Bool) :
    (validatePresence (identitySchemaFields cols) present = true ↔
      ∀ c ∈ cols, c.primaryKey = true → c.hasDefault = false →
        c.nullable = false → c.name ∈ present) ∧
    (validatePresence (identityFieldsSqla cols iu) present = true ↔
      ∀ c ∈ cols, c.primaryKey = true → c.hasDefault = false →
        c.nullable = false → c.name ∈ present) :=
  ⟨validate_identitySchemaFields_iff cols present,
   validate_identityFieldsSqla_iff cols present iu⟩

/-- Witness for C4 (amended) at a single-column primary key. -/
theorem identity_validate_iff_witness :
    validatePresence (identitySchemaFields [pkACol]) ["a"] = true :=
  ((identity_validate_iff [pkACol] ["a"] false).1).mpr (by decide)

/-- Embeds the setattr loop `for k, v in data.items(): setattr(model, k, v)`
(crud.py lines 169-170); the same shape describes the SET clause of the
UPDATE statement issued by CRUDBase.update. -/
def applyRow {β : Type} (m src : Dict β) : Dict β :=
  src.foldl (fun acc p => aset acc p.1 p.2) m

theorem alookup_applyRow_nodup {β : Type} (m src : Dict β) (c : Col)
    (h : (akeys src).Nodup) :
    alookup (applyRow m src) c = ofirst (alookup src c) (alookup m c) := by
  induction src generalizing m with
  | nil => rfl
  | cons p rest ih =>
    have hcons : akeys (p :: rest) = p.1 :: akeys rest := rfl
    rw [hcons] at h
    have hnotin : p.1 ∉ akeys rest := (List.nodup_cons.mp h).1
    have htail : (akeys rest).Nodup := (List.nodup_cons.mp h).2
    show alookup (applyRow (aset m p.1 p.2) rest) c = _
    rw [ih _ htail, alookup_aset]
    by_cases hp : p.1 = c
    · subst hp
      have : alookup rest p.1 = none := (alookup_eq_none rest p.1).mpr hnotin
      simp [alookup, this, ofirst]
    · have hcp : ¬c = p.1 := fun hc => hp hc.symm
      simp [alookup, hp, hcp]

theorem pyGet_applyRow_nodup {β : Type} (m src : Dict β) (c : Col)
    (h : (akeys src).Nodup) :
    pyGet (applyRow m src) c =
      match alookup src c with
      | some v => v
      | none => pyGet m c := by
  unfold pyGet
  rw [alookup_applyRow_nodup m src c h]
  cases alookup src c <;> rfl

theorem akeys_filter_subset {β : Type} (d : Dict β) (q : Col × Option β → Bool)
    (c : Col) (h : c ∈ akeys (d.filter q)) : c ∈ akeys d := by
  induction d with
  | nil => simp [akeys] at h
  | cons p rest ih =>
    by_cases hq : q p
    · rw [List.filter_cons_of_pos hq] at h
      rcases List.mem_cons.mp h with h1 | h1
      · exact List.mem_cons.mpr (Or.inl h1)
      · exact List.mem_cons.mpr (Or.inr (ih h1))
    · rw [List.filter_cons_of_neg hq] at h
      exact List.mem_cons.mpr (Or.inr (ih h))

theorem akeys_filter_nodup {β : Type} (d : Dict β) (q : Col × Option β → Bool)
    (h : (akeys d).Nodup) : (akeys (d.filter q)).Nodup := by
  induction d with
  | nil => simp [akeys]
  | cons p rest ih =>
    have hcons : akeys (p :: rest) = p.1 :: akeys rest := rfl
    rw [hcons] at h
    have hnotin : p.1 ∉ akeys rest := (List.nodup_cons.mp h).1
    have htail := (List.nodup_cons.mp h).2
    by_cases hq : q p
    · rw [List.filter_cons_of_pos hq]
      have : akeys (p :: rest.filter q) = p.1 :: akeys (rest.filter q) := rfl
      rw [this, List.nodup_cons]
      exact ⟨fun hc => hnotin (akeys_filter_subset rest q p.1 hc), ih htail⟩
    · rw [List.filter_cons_of_neg hq]
      exact ih htail

theorem alookup_filter_not_none {β : Type} (d : Dict β) (c : Col)
    (hnd : (akeys d).Nodup) :
    alookup (d.filter (fun p => p.2.isSome)) c =
      match alookup d c with
      | some v => if v.isNone then none else some v
      | none => none := by
  induction d with
  | nil => rfl
  | cons p rest ih =>
    have hcons : akeys (p :: rest) = p.1 :: akeys rest := rfl
    rw [hcons] at hnd
    have hnotin : p.1 ∉ akeys rest := (List.nodup_cons.mp hnd).1
    have htail := (List.nodup_cons.mp hnd).2
    by_cases hp : p.1 = c
    · subst hp
      cases hv : p.2 with
      | none =>
        rw [List.filter_cons_of_neg (by simp [hv])]
        have hnone : alookup (rest.filter (fun p => p.2.isSome)) p.1 = none := by
          rw [alookup_eq_none]
          exact fun hc => hnotin (akeys_filter_subset rest _ p.1 hc)
        simp [alookup, hnone, hv]
      | some b =>
        rw [List.filter_cons_of_pos (by simp [hv])]
        simp [alookup, hv]
    · cases hv : p.2 with
      | none =>
        rw [List.filter_cons_of_neg (by simp [hv])]
        simp [alookup, hp, ih htail]
      | some b =>
        rw [List.filter_cons_of_pos (by simp [hv])]
        simp [alookup, hp, ih htail]

/-- Embeds crud.py lines 192-195: under is_patch the None-valued entries of
update_dict are dropped, otherwise update_dict is applied verbatim. -/
def effectiveChanges {β : Type} (updateDict : Dict β) (isPatch : Bool) : Dict β :=
  if isPatch then updateDict.filter (fun p => p.2.isSome) else updateDict

/-- Per-row semantics of the UPDATE ... SET clause issued by CRUDBase.update
(crud.py lines 196-200). -/
def applyChangesRow {β : Type} (updateDict : Dict β) (isPatch : Bool) (r : Dict β) :
    Dict β :=
  applyRow r (effectiveChanges updateDict isPatch)

/-- C6: for the row update performed by CRUDBase.update, with is_patch=True
only the non-absent (non-None) fields of the changes dictionary are applied
and the stored values of absent fields are preserved; with is_patch=False
every field of the changes dictionary is applied verbatim, a None value
being a valid overwrite. -/
theorem update_patch_semantics {β : Type} (upd r : Dict β) (c : Col)
    (hnd : (akeys upd).Nodup) :
    (∀ v : β, alookup upd c = some (some v) →
        pyGet (applyChangesRow upd true r) c = some v) ∧
    ((alookup upd c = none ∨ alookup upd c = some none) →
        pyGet (applyChangesRow upd true r) c = pyGet r c) ∧
    (∀ v : Option β, alookup upd c = some v →
        pyGet (applyChangesRow upd false r) c = v) ∧
    (alookup upd c = none → pyGet (applyChangesRow upd false r) c = pyGet r c) := by
  have hndf : (akeys (upd.filter (fun p => p.2.isSome))).Nodup :=
    akeys_filter_nodup upd _ hnd
  have hpatch : pyGet (applyChangesRow upd true r) c =
      match alookup (upd.filter (fun p => p.2.isSome)) c with
      | some v => v
      | none => pyGet r c := by
    unfold applyChangesRow effectiveChanges
    rw [if_pos rfl]
    exact pyGet_applyRow_nodup r _ c hndf
  have hput : pyGet (applyChangesRow upd false r) c =
      match alookup upd c with
      | some v => v
      | none => pyGet r c := by
    unfold applyChangesRow effectiveChanges
    rw [if_neg (by simp)]
    exact pyGet_applyRow_nodup r _ c hnd
  refine ⟨?_, ?_, ?_, ?_⟩
  · intro v hv
    rw [hpatch, alookup_filter_not_none upd c hnd, hv]
    simp
  · intro hv
    rw [hpatch, alookup_filter_not_none upd c hnd]
    rcases hv with hv | hv <;> simp [hv]
  · intro v hv
    rw [hput, hv]
  · intro hv
    rw [hput, hv]

/-- Witness for C6 at a concrete changes dictionary containing a set field, a
None field and lacking a third. -/
theorem update_patch_semantics_witness :
    (∀ v : Int, alookup [("qty", some 9), ("extra", none)] "qty" = some (some v) →
        pyGet (applyChangesRow [("qty", some 9), ("extra", none)] true
          [("qty", some (5 : Int)), ("extra", some 3)]) "qty" = some v) ∧
    ((alookup [("qty", some (9 : Int)), ("extra", none)] "extra" = none ∨
        alookup [("qty", some (9 : Int)), ("extra", none)] "extra" = some none) →
        pyGet (applyChangesRow [("qty", some 9), ("extra", none)] true
          [("qty", some (5 : Int)), ("extra", some 3)]) "extra" =
          pyGet [("qty", some (5 : Int)), ("extra", some 3)] "extra") ∧
    (∀ v : Option Int,
        alookup [("qty", some 9), ("extra", none)] "extra" = some v →
        pyGet (applyChangesRow [("qty", some 9), ("extra", none)] false
          [("qty", some (5 : Int)), ("extra", some 3)]) "extra" = v) ∧
    (alookup [("qty", some (9 : Int)), ("extra", none)] "missing" = none →
        pyGet (applyChangesRow [("qty", some 9), ("extra", none)] false
          [("qty", some (5 : Int)), ("extra", some 3)]) "missing" =
          pyGet [("qty", some (5 : Int)), ("extra", some 3)] "missing") := by
  have h := update_patch_semantics
    (β := Int) [("qty", some 9), ("extra", none)]
    [("qty", some 5), ("extra", some 3)]
  exact ⟨(h "qty" (by decide)).1, (h "extra" (by decide)).2.1,
    (h "extra" (by decide)).2.2.1, (h "missing" (by decide)).2.2.2⟩

/-- Library fault raised by the CRUD accessor and translated by the route
layer (exc/exception.py). -/
inductive Fault where
  | notFound
  | integrityError (detail : String)
deriving DecidableEq

/-- SQL evaluation of the equality predicates from _generate_where_cause
(crud.py lines 48-55): sqlalchemy renders `== None` as IS NULL, and SQL
equality against a NULL stored value never holds, so a row matches exactly
when each filtered column's stored value equals the filter value, None
matching only None. -/
def rowMatches {β : Type} [DecidableEq β] (filterDict : Dict β) (r : Dict β) : Bool :=
  filterDict.all (fun p => decide (pyGet r p.1 = p.2))

/-- Embeds `filter_dict = filter_dict or {}` (crud.py line 51): a missing or
empty filter produces an empty WHERE conjunction. -/
def rowMatchesOpt {β : Type} [DecidableEq β] (filterDict : Option (Dict β))
    (r : Dict β) : Bool :=
  rowMatches (filterDict.getD []) r

/-- Embeds CRUDBase.update (crud.py lines 180-204) on an abstract table
state: every matching row gets the effective changes applied, and afterwards
NoResultFoundException is raised when the check is enabled and the statement
affected no row. -/
def updateOp {β : Type} [DecidableEq β] (filterDict : Option (Dict β))
    (updateDict : Dict β) (isPatch raiseOnNotAffected : Bool)
    (table : List (Dict β)) : Except Fault (List (Dict β)) :=
  let rowcount := table.countP (fun r => rowMatchesOpt filterDict r)
  let table2 := table.map (fun r =>
    if rowMatchesOpt filterDict r then applyChangesRow updateDict isPatch r else r)
  if raiseOnNotAffected ∧ rowcount = 0 then .error .notFound else .ok table2

/-- Embeds CRUDBase.delete (crud.py lines 206-219). -/
def deleteOp {β : Type} [DecidableEq β] (filterDict : Option (Dict β))
    (raiseOnNotAffected : Bool) (table : List (Dict β)) :
    Except Fault (List (Dict β)) :=
  let rowcount := table.countP (fun r => rowMatchesOpt filterDict r)
  if raiseOnNotAffected ∧ rowcount = 0 then .error .notFound
  else .ok (table.filter (fun r => !(rowMatchesOpt filterDict r)))

/-- C7: when the filter matches no row of the table, CRUDBase.update and
CRUDBase.delete fail with the NotFound fault if raise_on_not_affected is
enabled (its default), and return without error when the caller disables the
check. -/
theorem update_delete_zero_match {β : Type} [DecidableEq β]
    (fd : Option (Dict β)) (upd : Dict β) (ip : Bool) (table : List (Dict β))
    (h : ∀ r ∈ table, rowMatchesOpt fd r = false) :
    updateOp fd upd ip true table = .error .notFound ∧
    deleteOp fd true table = .error .notFound ∧
    updateOp fd upd ip false table = .ok table ∧
    deleteOp fd false table = .ok table := by
  have hcount : table.countP (fun r => rowMatchesOpt fd r) = 0 := by
    rw [List.countP_eq_zero]
    intro r hr
    simp [h r hr]
  have hmap : table.map (fun r =>
      if rowMatchesOpt fd r then applyChangesRow upd ip r else r) = table := by
    have hm : table.map (fun r =>
        if rowMatchesOpt fd r then applyChangesRow upd ip r else r) = table.map id := by
      apply List.map_congr_left
      intro r hr
      simp [h r hr]
    rw [hm, List.map_id]
  have hfilter : table.filter (fun r => !(rowMatchesOpt fd r)) = table := by
    rw [List.filter_eq_self]
    intro r hr
    simp [h r hr]
  refine ⟨?_, ?_, ?_, ?_⟩
  · simp [updateOp, hcount]
  · simp [deleteOp, hcount]
  · simp [updateOp, hcount, hmap]
  · simp [deleteOp, hcount, hfilter]

/-- Witness for C7: a one-row table and a filter on another id value. -/
theorem update_delete_zero_match_witness :
    updateOp (some [("id", some (5 : Int))]) [("qty", some 9)] true true
        [[("id", some 1), ("qty", some 2)]] = .error .notFound ∧
    deleteOp (some [("id", some (5 : Int))]) true
        [[("id", some 1), ("qty", some 2)]] = .error .notFound ∧
    updateOp (some [("id", some (5 : Int))]) [("qty", some 9)] true false
        [[("id", some 1), ("qty", some 2)]] = .ok [[("id", some 1), ("qty", some 2)]] ∧
    deleteOp (some [("id", some (5 : Int))]) false
        [[("id", some 1), ("qty", some 2)]] = .ok [[("id", some 1), ("qty", some 2)]] :=
  update_delete_zero_match (some [("id", some (5 : Int))]) [("qty", some 9)] true
    [[("id", some 1), ("qty", some 2)]] (by decide)

/-- C10: with a missing (None) or empty filter dictionary,
_generate_where_cause yields no predicate, so every row of the table
matches: CRUDBase.delete removes all rows and CRUDBase.update rewrites all
rows; no accessor-level guard rejects the empty filter. -/
theorem empty_filter_touches_all {β : Type} [DecidableEq β]
    (upd : Dict β) (ip : Bool) (table : List (Dict β)) (fd : Option (Dict β))
    (hempty : fd = none ∨ fd = some []) :
    (∀ r ∈ table, rowMatchesOpt fd r = true) ∧
    deleteOp fd false table = .ok [] ∧
    updateOp fd upd ip false table =
      .ok (table.map (applyChangesRow upd ip)) := by
  have hall : ∀ r : Dict β, rowMatchesOpt fd r = true := by
    intro r
    rcases hempty with h | h <;> simp [h, rowMatchesOpt, rowMatches]
  refine ⟨fun r _ => hall r, ?_, ?_⟩
  · simp [deleteOp, hall, List.filter_eq_nil_iff]
  · have hmap : table.map (fun r =>
        if rowMatchesOpt fd r then applyChangesRow upd ip r else r) =
        table.map (applyChangesRow upd ip) := by
      apply List.map_congr_left
      intro r _
      simp [hall r]
    simp [updateOp, hmap]

/-- Witness for C10: a two-row table wiped by a delete with a None filter. -/
theorem empty_filter_touches_all_witness :
    (∀ r ∈ [[("id", some (1 : Int))], [("id", some 2)]],
      rowMatchesOpt (none : Option (Dict Int)) r = true) ∧
    deleteOp (none : Option (Dict Int)) false [[("id", some 1)], [("id", some 2)]] =
      .ok [] ∧
    updateOp (none : Option (Dict Int)) [("id", some 7)] false false
        [[("id", some 1)], [("id", some 2)]] =
      .ok ([[("id", some (1 : Int))], [("id", some 2)]].map
        (applyChangesRow [("id", some 7)] false)) :=
  empty_filter_touches_all [("id", some 7)] false
    [[("id", some 1)], [("id", some 2)]] none (Or.inl rfl)

/-- HTTP error as produced by db_exception_wrapper (exc/decorator.py):
HTTPException(status_code=e.code, detail=e.detail). -/
structure HttpError where
  code : Nat
  detail : String
deriving DecidableEq

/-- model_dump(exclude_none=True): drop the None-valued fields of a schema
instance. -/
def dumpExcludeNone {β : Type} (d : Dict β) : Dict β :=
  d.filter (fun p => p.2.isSome)

/-- Database update call as issued by the PATCH handler. -/
structure DbUpdateCall (β : Type) where
  filterDict : Dict β
  updateDict : Dict β
  isPatch : Bool
deriving DecidableEq

/-- Embeds the PATCH handlers (routes/defaults.py lines 106-134,
reference_routes/router_fabric.py lines 199-232): the identity filter and
the payload are dumped with exclude_none=True; when no changed field
remains, IntegrityErrorException("There are no info in the input data") is
raised before crud.update is called, and db_exception_wrapper translates it
to an HTTPException with IntegrityErrorException.default_code() = 400;
otherwise crud.update(filter_dict, changes, is_patch=True) is issued. -/
def patchHandler {β : Type} [DecidableEq β] (identityFilter payload : Dict β) :
    Except HttpError (DbUpdateCall β) :=
  let filterDict := dumpExcludeNone identityFilter
  let changes := dumpExcludeNone payload
  if changes.isEmpty then .error ⟨400, "There are no info in the input data"⟩
  else .ok ⟨filterDict, changes, true⟩

/-- Counterexample to C8 as stated: at a concrete empty patch the handler
rejects with detail "There are no info in the input data", which is not the
claimed message "no info in input data". -/
theorem patch_empty_message_differs :
    patchHandler (β := Int) [("id", some 1)] [("qty", none)] =
      .error ⟨400, "There are no info in the input data"⟩ ∧
    "There are no info in the input data" ≠ "no info in input data" := by
  constructor
  · rfl
  · decide

/-- C8 (amended): every PATCH payload with zero non-absent fields is
rejected as an integrity error with HTTP status 400 and detail "There are no
info in the input data", before any database update is issued (the error is
returned instead of a DbUpdateCall); a payload with at least one non-absent
field reaches crud.update with is_patch=True. -/
theorem patch_empty_rejected {β : Type} [DecidableEq β]
    (identityFilter payload : Dict β)
    (h : dumpExcludeNone payload = []) :
    patchHandler identityFilter payload =
      .error ⟨400, "There are no info in the input data"⟩ := by
  unfold patchHandler
  rw [h]
  rfl

/-- Witness for C8 (amended) at a payload whose only field is None. -/
theorem patch_empty_rejected_witness :
    patchHandler (β := Int) [("id", some 2)] [("qty", none), ("sku", none)] =
      .error ⟨400, "There are no info in the input data"⟩ :=
  patch_empty_rejected [("id", some 2)] [("qty", none), ("sku", none)] (by decide)

/-- Embeds parse_csv (router_fabric.py lines 151-159): validate the decoded
rows in order against the full schema; the first validation failure raises
CsvError carrying the failing row and its validation errors, discarding
everything.  The pydantic row constructor is abstracted as a function from a
row to either its validation errors or a validated object. -/
def parseCsv {β ρ ε : Type} (validate : Dict β → Except ε ρ) :
    List (Dict β) → Except (Dict β × ε) (List ρ)
  | [] => .ok []
  | row :: rest =>
    match validate row with
    | .error e => .error (row, e)
    | .ok v =>
      match parseCsv validate rest with
      | .error err => .error err
      | .ok vs => .ok (v :: vs)

/-- Outcome of POST /csv (router_fabric.py lines 161-197): either an HTTP
400 carrying the failing row and its validation errors with no database
call, or the bulk_merge_create call on all validated rows followed by the
commit. -/
inductive CsvOutcome (β ρ ε : Type) where
  | badRequest (code : Nat) (row : Dict β) (detail : ε)
  | bulkMerge (rows : List ρ) (isSimpleInsert : Bool)

/-- Embeds create_common_from_csv (router_fabric.py lines 168-197) with no
csv_preparer: a CsvError surfaces as HTTPException 400 with body
{"row": e.row, "detail": e.validation_error.errors()} before
bulk_merge_create runs; otherwise the validated rows go to
bulk_merge_create with is_simple_insert = (mode is CsvMode.insert). -/
def createFromCsv {β ρ ε : Type} (validate : Dict β → Except ε ρ)
    (rows : List (Dict β)) (modeIsInsert : Bool) : CsvOutcome β ρ ε :=
  match parseCsv validate rows with
  | .error (row, e) => .badRequest 400 row e
  | .ok vs => .bulkMerge vs modeIsInsert

/-- C9: when the uploaded batch contains a failing row, the import aborts at
the first failing row, before any database call, with HTTP 400 reporting
that row and its validation errors; no bulk_merge_create call is issued, so
no row of the batch is persisted. -/
theorem csv_abort_on_first_invalid {β ρ ε : Type}
    (validate : Dict β → Except ε ρ) (pre post : List (Dict β))
    (bad : Dict β) (e : ε) (mode : Bool)
    (hpre : ∀ r ∈ pre, ∃ v, validate r = .ok v)
    (hbad : validate bad = .error e) :
    createFromCsv validate (pre ++ bad :: post) mode =
      .badRequest 400 bad e := by
  have hparse : parseCsv validate (pre ++ bad :: post) = .error (bad, e) := by
    induction pre with
    | nil => simp [parseCsv, hbad]
    | cons r rest ih =>
      rcases hpre r (List.mem_cons_self r rest) with ⟨v, hv⟩
      have hrest : ∀ q ∈ rest, ∃ w, validate q = .ok w :=
        fun q hq => hpre q (List.mem_cons_of_mem r hq)
      rw [List.cons_append]
      show (match validate r with
        | .error e2 => Except.error (r, e2)
        | .ok v2 =>
          match parseCsv validate (rest ++ bad :: post) with
          | .error err => .error err
          | .ok vs => .ok (v2 :: vs)) = .error (bad, e)
      rw [hv, ih hrest]
  unfold createFromCsv
  rw [hparse]

/-- Row validator used to witness C9: the full schema requires field "a". -/
def csvValidateA (d : Dict Int) : Except String Int :=
  match pyGet d "a" with
  | some v => .ok v
  | none => .error "field a required"

/-- Witness for C9: the second of three rows lacks the required field. -/
theorem csv_abort_on_first_invalid_witness :
    createFromCsv csvValidateA
        [[("a", some 1)], [("b", some 2)], [("a", some 3)]] false =
      .badRequest 400 [("b", some (2 : Int))] "field a required" :=
  csv_abort_on_first_invalid csvValidateA [[("a", some 1)]] [[("a", some 3)]]
    [("b", some 2)] "field a required" false
    (by
      intro r hr
      rw [List.mem_singleton] at hr
      subst hr
      exact ⟨1, rfl⟩)
    rfl

/-- One pass of the composite-merge branch of bulk_merge_create (crud.py
lines 152-177): walk the table rows in order; a row whose key tuple can
still be popped from the dedup dict receives the popped dict's fields via
setattr (a second table row with an already-popped key hits the KeyError
branch and stays untouched, as does any row whose key is not a batch key —
such rows are not selected by the existence query, whose OR of
AND-equalities matches exactly the rows whose key tuple equals a dict key).
Returns the mutated table and the remaining dict entries. -/
def applyUpdates {β : Type} [DecidableEq β] (keys : List Col) :
    List (Dict β) → List (List (Option β) × Dict β) →
      List (Dict β) × List (List (Option β) × Dict β)
  | [], d => ([], d)
  | m :: rest, d =>
    match apop d (keyOf keys m) with
    | some (v, d2) =>
      let r := applyUpdates keys rest d2
      (applyRow m v :: r.1, r.2)
    | none =>
      let r := applyUpdates keys rest d
      (m :: r.1, r.2)

/-- Embeds the composite (multi-column unique constraint) branch of
bulk_merge_create (crud.py lines 147-178): dedup the batch by key tuple,
update matching existing rows field by field, then insert the remaining
dict values as new rows (session.add_all appends them after the existing
rows). -/
def mergeComposite {β : Type} [DecidableEq β] (keys : List Col)
    (table batch : List (Dict β)) : List (Dict β) :=
  let r := applyUpdates keys table (buildDict keys batch)
  r.1 ++ r.2.map Prod.snd

/-- Every pair of m at key k carries the value v, and k is present. -/
def allAt {κ α : Type} (m : List (κ × α)) (k : κ) (v : α) : Prop :=
  k ∈ akeys m ∧ ∀ p ∈ m, p.1 = k → p = (k, v)

theorem mem_akeys_of_mem {κ α : Type} {m : List (κ × α)} {p : κ × α}
    (h : p ∈ m) : p.1 ∈ akeys m :=
  List.mem_map.mpr ⟨p, h, rfl⟩

theorem aset_allAt_self {κ α : Type} [DecidableEq κ]
    (m : List (κ × α)) (k : κ) (v : α) : allAt (aset m k v) k v := by
  constructor
  · rw [akeys_aset]
    by_cases hmem : k ∈ akeys m <;> simp [hmem]
  · intro p hp hpk
    unfold aset at hp
    by_cases hmem : k ∈ akeys m
    · rw [if_pos hmem] at hp
      rcases List.mem_map.mp hp with ⟨q, hq, hfq⟩
      by_cases hq1 : q.1 = k
      · rw [if_pos hq1] at hfq
        exact hfq.symm
      · rw [if_neg hq1] at hfq
        rw [← hfq] at hpk
        exact absurd hpk hq1
    · rw [if_neg hmem] at hp
      rcases List.mem_append.mp hp with hp | hp
      · exact absurd (hpk ▸ mem_akeys_of_mem hp) hmem
      · exact List.mem_singleton.mp hp

theorem aset_preserves_allAt {κ α : Type} [DecidableEq κ]
    (m : List (κ × α)) (k : κ) (v : α) (k' : κ) (v' : α)
    (hne : k' ≠ k) (h : allAt m k v) : allAt (aset m k' v') k v := by
  obtain ⟨hk, hall⟩ := h
  constructor
  · rw [akeys_aset]
    by_cases hmem : k' ∈ akeys m <;> simp [hmem, hk]
  · intro p hp hp1
    unfold aset at hp
    by_cases hmem : k' ∈ akeys m
    · rw [if_pos hmem] at hp
      rcases List.mem_map.mp hp with ⟨q, hq, hfq⟩
      by_cases hq1 : q.1 = k'
      · rw [if_pos hq1] at hfq
        rw [← hfq] at hp1
        exact absurd hp1 hne
      · rw [if_neg hq1] at hfq
        rw [hfq] at hq
        exact hall p hq hp1
    · rw [if_neg hmem] at hp
      rcases List.mem_append.mp hp with hp | hp
      · exact hall p hp hp1
      · rw [List.mem_singleton] at hp
        rw [hp] at hp1
        exact absurd hp1 hne

theorem aset_fix {κ α : Type} [DecidableEq κ]
    (m : List (κ × α)) (k : κ) (v : α) (h : allAt m k v) : aset m k v = m := by
  obtain ⟨hk, hall⟩ := h
  unfold aset
  rw [if_pos hk]
  have hmap : m.map (fun p => if p.1 = k then (k, v) else p) = m.map id := by
    apply List.map_congr_left
    intro p hp
    by_cases hp1 : p.1 = k
    · simp [hp1, (hall p hp hp1).symm]
    · simp [hp1]
  simpa using hmap

theorem applyRow_preserves_allAt {β : Type} (m src : Dict β)
    (k : Col) (v : Option β) (hk : ∀ p ∈ src, p.1 ≠ k) (h : allAt m k v) :
    allAt (applyRow m src) k v := by
  induction src generalizing m with
  | nil => exact h
  | cons q rest ih =>
    show allAt (applyRow (aset m q.1 q.2) rest) k v
    exact ih _ (fun p hp => hk p (List.mem_cons_of_mem q hp))
      (aset_preserves_allAt m k v q.1 q.2
        (hk q (List.mem_cons_self q rest)) h)

theorem applyRow_allAt {β : Type} (m src : Dict β)
    (hnd : (akeys src).Nodup) : ∀ p ∈ src, allAt (applyRow m src) p.1 p.2 := by
  induction src generalizing m with
  | nil => intro p hp; simp at hp
  | cons q rest ih =>
    have hcons : akeys (q :: rest) = q.1 :: akeys rest := rfl
    rw [hcons] at hnd
    have hnotin : q.1 ∉ akeys rest := (List.nodup_cons.mp hnd).1
    have htail := (List.nodup_cons.mp hnd).2
    intro p hp
    rcases List.mem_cons.mp hp with hp | hp
    · subst hp
      show allAt (applyRow (aset m p.1 p.2) rest) p.1 p.2
      refine applyRow_preserves_allAt _ _ _ _ ?_ (aset_allAt_self m p.1 p.2)
      intro q2 hq2 hq2eq
      exact hnotin (hq2eq ▸ mem_akeys_of_mem hq2)
    · exact ih _ htail p hp

theorem applyRow_fix {β : Type} (m src : Dict β)
    (h : ∀ p ∈ src, allAt m p.1 p.2) : applyRow m src = m := by
  induction src with
  | nil => rfl
  | cons q rest ih =>
    show applyRow (aset m q.1 q.2) rest = m
    rw [aset_fix m q.1 q.2 (h q (List.mem_cons_self q rest))]
    exact ih (fun p hp => h p (List.mem_cons_of_mem q hp))

theorem applyRow_idem {β : Type} (m src : Dict β)
    (hnd : (akeys src).Nodup) :
    applyRow (applyRow m src) src = applyRow m src :=
  applyRow_fix _ _ (applyRow_allAt m src hnd)

theorem nodup_keys_pair_eq {κ α : Type} (m : List (κ × α))
    (hnd : (akeys m).Nodup) (p q : κ × α) (hp : p ∈ m) (hq : q ∈ m)
    (h : p.1 = q.1) : p = q := by
  induction m with
  | nil => simp at hp
  | cons a rest ih =>
    have hcons : akeys (a :: rest) = a.1 :: akeys rest := rfl
    rw [hcons] at hnd
    have hnotin : a.1 ∉ akeys rest := (List.nodup_cons.mp hnd).1
    have htail := (List.nodup_cons.mp hnd).2
    rcases List.mem_cons.mp hp with hp1 | hp1 <;>
      rcases List.mem_cons.mp hq with hq1 | hq1
    · rw [hp1, hq1]
    · subst hp1
      exact absurd (h ▸ mem_akeys_of_mem hq1) hnotin
    · subst hq1
      exact absurd (h ▸ mem_akeys_of_mem hp1) hnotin
    · exact ih htail hp1 hq1

theorem applyRow_self {β : Type} (r : Dict β) (hnd : (akeys r).Nodup) :
    applyRow r r = r := by
  apply applyRow_fix
  intro p hp
  refine ⟨mem_akeys_of_mem hp, ?_⟩
  intro q hq hq1
  have : q = p := nodup_keys_pair_eq r hnd q p hq hp hq1
  rw [this]

theorem map_congr_of_eq_map {α γ : Type} (l : List α) (f g : α → γ)
    (h : l.map f = l.map g) : ∀ a ∈ l, f a = g a := by
  induction l with
  | nil => intro a ha; simp at ha
  | cons b rest ih =>
    intro a ha
    simp only [List.map_cons, List.cons.injEq] at h
    rcases List.mem_cons.mp ha with ha | ha
    · rw [ha]; exact h.1
    · exact ih h.2 a ha

theorem keyOf_applyRow {β : Type} (keys : List Col) (m v : Dict β)
    (hnd : (akeys v).Nodup) (hkey : keyOf keys v = keyOf keys m) :
    keyOf keys (applyRow m v) = keyOf keys m := by
  unfold keyOf
  apply List.map_congr_left
  intro c hc
  have hcomp : pyGet v c = pyGet m c :=
    map_congr_of_eq_map keys (pyGet v) (pyGet m) hkey c hc
  rw [show pyGet (applyRow m v) c = (alookup (applyRow m v) c).join from rfl,
    alookup_applyRow_nodup m v c hnd]
  cases hl : alookup v c with
  | none => rfl
  | some w =>
    have : pyGet v c = w := by simp [pyGet, hl]
    rw [← hcomp, this]
    rfl

theorem apop_mem {κ α : Type} [DecidableEq κ]
    (d : List (κ × α)) (k : κ) (v : α) (d2 : List (κ × α))
    (h : apop d k = some (v, d2)) : (k, v) ∈ d ∧ ∀ p ∈ d2, p ∈ d := by
  induction d generalizing d2 with
  | nil => simp [apop] at h
  | cons q rest ih =>
    by_cases hq : q.1 = k
    · rw [apop, if_pos hq] at h
      simp only [Option.some.injEq, Prod.mk.injEq] at h
      obtain ⟨hv, hd2⟩ := h
      constructor
      · subst hv
        have : q = (k, q.2) := by
          rw [← hq]
        rw [← this]
        exact List.mem_cons_self q rest
      · intro p hp
        rw [← hd2] at hp
        exact List.mem_cons_of_mem q hp
    · rw [apop, if_neg hq] at h
      cases hrec : apop rest k with
      | none => rw [hrec] at h; simp at h
      | some w =>
        rw [hrec] at h
        simp only [Option.map_some', Option.some.injEq, Prod.mk.injEq] at h
        obtain ⟨hv, hd2⟩ := h
        obtain ⟨hmem, hsub⟩ := ih w.2 (by rw [hrec, ← hv])
        refine ⟨List.mem_cons_of_mem q hmem, ?_⟩
        intro p hp
        rw [← hd2] at hp
        rcases List.mem_cons.mp hp with hp | hp
        · exact hp ▸ List.mem_cons_self q rest
        · exact List.mem_cons_of_mem q (hsub p hp)

theorem mem_aset {κ α : Type} [DecidableEq κ]
    (m : List (κ × α)) (k : κ) (v : α) (p : κ × α)
    (h : p ∈ aset m k v) : p ∈ m ∨ p = (k, v) := by
  unfold aset at h
  by_cases hmem : k ∈ akeys m
  · rw [if_pos hmem] at h
    rcases List.mem_map.mp h with ⟨q, hq, hfq⟩
    by_cases hq1 : q.1 = k
    · rw [if_pos hq1] at hfq
      exact Or.inr hfq.symm
    · rw [if_neg hq1] at hfq
      exact Or.inl (hfq ▸ hq)
  · rw [if_neg hmem] at h
    rcases List.mem_append.mp h with h | h
    · exact Or.inl h
    · exact Or.inr (List.mem_singleton.mp h)

theorem buildDict_forall_aux {β : Type} [DecidableEq β]
    (keys : List Col) (Q : List (Option β) × Dict β → Prop) :
    ∀ (rows : List (Dict β)) (acc : List (List (Option β) × Dict β)),
      (∀ p ∈ acc, Q p) → (∀ r ∈ rows, Q (keyOf keys r, r)) →
      ∀ p ∈ rows.foldl (fun a r => aset a (keyOf keys r) r) acc, Q p := by
  intro rows
  induction rows with
  | nil => intro acc hacc _ p hp; exact hacc p hp
  | cons r rest ih =>
    intro acc hacc hrows p hp
    rw [List.foldl_cons] at hp
    refine ih (aset acc (keyOf keys r) r) ?_
      (fun q hq => hrows q (List.mem_cons_of_mem r hq)) p hp
    intro q hq
    rcases mem_aset acc (keyOf keys r) r q hq with hq | hq
    · exact hacc q hq
    · rw [hq]
      exact hrows r (List.mem_cons_self r rest)

theorem buildDict_forall {β : Type} [DecidableEq β]
    (keys : List Col) (rows : List (Dict β))
    (Q : List (Option β) × Dict β → Prop)
    (hQ : ∀ r ∈ rows, Q (keyOf keys r, r)) :
    ∀ p ∈ buildDict keys rows, Q p :=
  buildDict_forall_aux keys Q rows [] (by simp) hQ

theorem apop_cons {κ α : Type} [DecidableEq κ] (q : κ × α) (rest : List (κ × α))
    (k : κ) :
    apop (q :: rest) k =
      if q.1 = k then some (q.2, rest)
      else (apop rest k).map (fun w => (w.1, q :: w.2)) := rfl

theorem applyUpdates_cons_some {β : Type} [DecidableEq β] (keys : List Col)
    (m : Dict β) (rest : List (Dict β)) (d : List (List (Option β) × Dict β))
    (v : Dict β) (d2 : List (List (Option β) × Dict β))
    (h : apop d (keyOf keys m) = some (v, d2)) :
    applyUpdates keys (m :: rest) d =
      (applyRow m v :: (applyUpdates keys rest d2).1,
        (applyUpdates keys rest d2).2) := by
  rw [applyUpdates, h]

theorem applyUpdates_cons_none {β : Type} [DecidableEq β] (keys : List Col)
    (m : Dict β) (rest : List (Dict β)) (d : List (List (Option β) × Dict β))
    (h : apop d (keyOf keys m) = none) :
    applyUpdates keys (m :: rest) d =
      (m :: (applyUpdates keys rest d).1, (applyUpdates keys rest d).2) := by
  rw [applyUpdates, h]

theorem applyUpdates_vals {β : Type} [DecidableEq β] (keys : List Col)
    (d : List (List (Option β) × Dict β))
    (hd1 : ∀ p ∈ d, keyOf keys p.2 = p.1)
    (hd2 : ∀ p ∈ d, (akeys p.2).Nodup) :
    applyUpdates keys (d.map Prod.snd) d = (d.map Prod.snd, []) := by
  induction d with
  | nil => rfl
  | cons q d2 ih =>
    have hkey : keyOf keys q.2 = q.1 := hd1 q (List.mem_cons_self q d2)
    have hpop : apop (q :: d2) (keyOf keys q.2) = some (q.2, d2) := by
      rw [apop_cons, if_pos hkey.symm]
    have hself : applyRow q.2 q.2 = q.2 :=
      applyRow_self q.2 (hd2 q (List.mem_cons_self q d2))
    have hrec := ih (fun p hp => hd1 p (List.mem_cons_of_mem q hp))
      (fun p hp => hd2 p (List.mem_cons_of_mem q hp))
    show applyUpdates keys (q.2 :: d2.map Prod.snd) (q :: d2) = _
    rw [applyUpdates_cons_some keys q.2 (d2.map Prod.snd) (q :: d2) q.2 d2 hpop,
      hrec, hself]
    rfl

theorem applyUpdates_stable {β : Type} [DecidableEq β] (keys : List Col)
    (t : List (Dict β)) (d : List (List (Option β) × Dict β))
    (hd1 : ∀ p ∈ d, keyOf keys p.2 = p.1)
    (hd2 : ∀ p ∈ d, (akeys p.2).Nodup) :
    applyUpdates keys
        ((applyUpdates keys t d).1 ++ (applyUpdates keys t d).2.map Prod.snd) d =
      ((applyUpdates keys t d).1 ++ (applyUpdates keys t d).2.map Prod.snd, []) := by
  induction t generalizing d with
  | nil =>
    show applyUpdates keys (d.map Prod.snd) d = _
    exact applyUpdates_vals keys d hd1 hd2
  | cons m rest ih =>
    cases hpop : apop d (keyOf keys m) with
    | none =>
      rw [applyUpdates_cons_none keys m rest d hpop, List.cons_append,
        applyUpdates_cons_none keys m _ d hpop, ih d hd1 hd2]
    | some vd =>
      obtain ⟨v, d2⟩ := vd
      obtain ⟨hmem, hsub⟩ := apop_mem d (keyOf keys m) v d2 hpop
      have hndv : (akeys v).Nodup := hd2 (keyOf keys m, v) hmem
      have hkv : keyOf keys v = keyOf keys m := hd1 (keyOf keys m, v) hmem
      have hkeep : keyOf keys (applyRow m v) = keyOf keys m :=
        keyOf_applyRow keys m v hndv hkv
      have hpop2 : apop d (keyOf keys (applyRow m v)) = some (v, d2) := by
        rw [hkeep]
        exact hpop
      have hidem : applyRow (applyRow m v) v = applyRow m v :=
        applyRow_idem m v hndv
      rw [applyUpdates_cons_some keys m rest d v d2 hpop, List.cons_append,
        applyUpdates_cons_some keys (applyRow m v) _ d v d2 hpop2,
        ih d2 (fun p hp => hd1 p (hsub p hp)) (fun p hp => hd2 p (hsub p hp)),
        hidem]

/-- C3: with a composite unique key, applying the same batch a second time
through the composite-merge branch of bulk_merge_create leaves the table of
the first application unchanged — identical row list, hence identical row
count and field values: every batch key finds an existing row, the
field-by-field update writes back the same values, and nothing remains to
insert. -/
theorem bulk_merge_idempotent {β : Type} [DecidableEq β]
    (keys : List Col) (table batch : List (Dict β))
    (_hcomposite : 2 ≤ keys.length)
    (hb : ∀ r ∈ batch, (akeys r).Nodup) :
    mergeComposite keys (mergeComposite keys table batch) batch =
      mergeComposite keys table batch := by
  have hd1 : ∀ p ∈ buildDict keys batch, keyOf keys p.2 = p.1 :=
    buildDict_forall keys batch _ (fun r _ => rfl)
  have hd2 : ∀ p ∈ buildDict keys batch, (akeys p.2).Nodup :=
    buildDict_forall keys batch _ (fun r hr => hb r hr)
  show (applyUpdates keys
      ((applyUpdates keys table (buildDict keys batch)).1 ++
        (applyUpdates keys table (buildDict keys batch)).2.map Prod.snd)
      (buildDict keys batch)).1 ++
      (applyUpdates keys
        ((applyUpdates keys table (buildDict keys batch)).1 ++
          (applyUpdates keys table (buildDict keys batch)).2.map Prod.snd)
        (buildDict keys batch)).2.map Prod.snd = _
  rw [applyUpdates_stable keys table (buildDict keys batch) hd1 hd2]
  simp [mergeComposite]

/-- Witness for C3: a one-row table merged twice with a two-row batch over
the composite key (a, b). -/
theorem bulk_merge_idempotent_witness :
    mergeComposite ["a", "b"]
        (mergeComposite ["a", "b"] [[("a", some 1), ("b", some 2), ("x", some 0)]]
          rowsC1)
        rowsC1 =
      mergeComposite ["a", "b"] [[("a", some (1 : Int)), ("b", some 2), ("x", some 0)]]
        rowsC1 :=
  bulk_merge_idempotent ["a", "b"] [[("a", some 1), ("b", some 2), ("x", some 0)]]
    rowsC1 (by decide) (by decide)

end Fabric
